import Mathlib

/-!
Verification development for `src/Scripts/crop_screenshots.py` of the
EnfusionMapMaker repository: a shallow embedding of the coordinate grid
model, tile registry, compositor and alignment-scoring code, together with
theorems settling the behavioural claims about them.

Conventions of the embedding:
* Python `int` world coordinates, crop sizes and overlaps become `Int`.
* Python `int(a / b)` (float true division then truncation toward zero)
  becomes `Int.tdiv`, which is exact for the integer inputs in scope.
* Python `str(n)` decimal rendering of integers is modelled by an explicit
  digit-list function (`pyStrIntChars`).
* A Python function that can raise becomes a function into `Option`/`Except`;
  `none`/`.error` model the raised exception.
* Image payloads, the filesystem and the GUI are external collaborators and
  are not part of the model; only coordinates and pixel arithmetic are.
-/

namespace CropScreenshots

/-- Python `int(a / b)`: true division followed by truncation toward zero.
Exact for `b ≠ 0` at the integer magnitudes used by the script. -/
def pyIntOfDiv (a b : Int) : Int := a.tdiv b

/-- Decimal digit list of a natural number, most significant first, with a
fuel argument making the recursion structural (so that it reduces in the
kernel).  `natChars (n+1) n` renders `n` the way Python `str` does. -/
def natChars : Nat → Nat → List Char
  | 0, _ => []
  | fuel + 1, n =>
    if n < 10 then [Nat.digitChar n]
    else natChars fuel (n / 10) ++ [Nat.digitChar (n % 10)]

/-- Python `str(n)` for a natural number `n`: decimal digits, no sign, no
leading zeros. -/
def pyStrNatChars (n : Nat) : List Char := natChars (n + 1) n

/-- Python `str(i)` for an integer `i`: a minus sign followed by the decimal
digits when `i < 0`, bare digits otherwise. -/
def pyStrIntChars : Int → List Char
  | .ofNat m => pyStrNatChars m
  | .negSucc m => '-' :: pyStrNatChars (m + 1)

/-- The `Screenshot` entity of the script: world-space coordinates plus the
two optional file handles.  The image payloads themselves are external. -/
structure Screenshot where
  xCoordWS : Int
  zCoordWS : Int
  screenshot_filepath : Option String
  tile_filepath : Option String
deriving DecidableEq, Repr

/-- `Screenshot.make_coordinate_string`: the f-string interpolating the two
coordinates after a `Screenshot_` prelude, used as the registry key. -/
def Screenshot.make_coordinate_string (x z : Int) : String :=
  "Screenshot_" ++ String.mk (pyStrIntChars x) ++ "_" ++ String.mk (pyStrIntChars z)

/-- `Screenshot.coordinate_string` (property): the key of this screenshot. -/
def Screenshot.coordinate_string (s : Screenshot) : String :=
  Screenshot.make_coordinate_string s.xCoordWS s.zCoordWS

/-- `Screenshot.get_unit_coordinates`: per-axis grid normalization,
`(int((x - min_x) / step), int((z - min_z) / step))`. -/
def Screenshot.get_unit_coordinates (s : Screenshot) (min_x min_z step : Int) : Int × Int :=
  (pyIntOfDiv (s.xCoordWS - min_x) step, pyIntOfDiv (s.zCoordWS - min_z) step)

/-- Insertion-ordered association list modelling a Python `dict[str, Screenshot]`. -/
abbrev ScreenshotDict := List (String × Screenshot)

/-- Python `d[k] = v` on an insertion-ordered dict: overwrite the value at an
existing key in place, otherwise append the new pair. -/
def dictInsert (m : ScreenshotDict) (k : String) (v : Screenshot) : ScreenshotDict :=
  match m with
  | [] => [(k, v)]
  | (k', v') :: rest => if k' = k then (k', v) :: rest else (k', v') :: dictInsert rest k v

/-- Python `d[k]` / `d.get(k)`: the value stored at `k`, if any. -/
def dictLookup (m : ScreenshotDict) (k : String) : Option Screenshot :=
  match m with
  | [] => none
  | (k', v) :: rest => if k' = k then some v else dictLookup rest k

/-- CPython equality between a `str` dict key and a `Screenshot` probe, as
evaluated by `screenshot in mapped_screenshots` (line 642 of the script):
`str.__eq__` returns `NotImplemented` for a non-`str` argument, and the
reflected `Screenshot.__eq__` returns `False` because its argument is not a
`Screenshot`.  The comparison is therefore `False` for every key, whatever
the hash values are. -/
def pyEqKeyScreenshot (_k : String) (_s : Screenshot) : Bool := false

/-- Python `screenshot in mapped_screenshots`: membership among the dict's
*keys*, using `pyEqKeyScreenshot` on hash-bucket candidates. -/
def pyDictMember (m : ScreenshotDict) (s : Screenshot) : Bool :=
  m.any (fun kv => pyEqKeyScreenshot kv.1 s)

/-- The sort key comparison of `ScreenshotProcessor.sort`: Python tuple
comparison `(x, z) <= (x', z')`, i.e. lexicographic order on coordinates. -/
def tileLe (a b : Screenshot) : Bool :=
  decide (a.xCoordWS < b.xCoordWS) ||
    (decide (a.xCoordWS = b.xCoordWS) && decide (a.zCoordWS ≤ b.zCoordWS))

/-- Insert a screenshot into a list, before the first element it compares
`tileLe`-below-or-equal to. -/
def insertTile (s : Screenshot) : List Screenshot → List Screenshot
  | [] => [s]
  | t :: ts => if tileLe s t then s :: t :: ts else t :: insertTile s ts

/-- Python `sorted(screenshots, key=lambda s: (s.xCoordWS, s.zCoordWS))`:
the stable sort by the coordinate pair.  A stable sort's output is uniquely
determined by the key order, so this insertion sort computes exactly the
list `sorted` returns. -/
def pySort : List Screenshot → List Screenshot
  | [] => []
  | s :: rest => insertTile s (pySort rest)

/-- The `ScreenshotProcessor` registry state: the (kept-sorted) tile list and
the coordinate-string-keyed dict. -/
structure ScreenshotProcessor where
  screenshots : List Screenshot
  mapped_screenshots : ScreenshotDict
deriving DecidableEq, Repr

/-- `ScreenshotProcessor()`: the empty registry. -/
def ScreenshotProcessor.empty : ScreenshotProcessor := ⟨[], []⟩

/-- `ScreenshotProcessor.add_screenshot` (lines 641-646): skip when the
membership test reports the screenshot as already present, else append it,
store it in the dict under its coordinate string, and re-sort the list. -/
def ScreenshotProcessor.add_screenshot (p : ScreenshotProcessor) (s : Screenshot) :
    ScreenshotProcessor :=
  if pyDictMember p.mapped_screenshots s then p
  else
    ⟨pySort (p.screenshots ++ [s]),
     dictInsert p.mapped_screenshots s.coordinate_string s⟩

/-- A registry built by a sequence of `add_screenshot` calls starting from
the empty registry. -/
def ScreenshotProcessor.ofAdds (l : List Screenshot) : ScreenshotProcessor :=
  l.foldl ScreenshotProcessor.add_screenshot ScreenshotProcessor.empty

/-- Python `min` over a nonempty list (`min([])` raises `ValueError`,
modelled by `none`). -/
def listMin : List Int → Option Int
  | [] => none
  | x :: xs => some (xs.foldl min x)

/-- Python `max` over a nonempty list. -/
def listMax : List Int → Option Int
  | [] => none
  | x :: xs => some (xs.foldl max x)

/-- `ScreenshotProcessor.min_x`: scan of the registry for the smallest x
coordinate (the `is not None` filter in the source never removes anything,
coordinates being mandatory ints).  `none` models the `ValueError` that
`min` raises on an empty registry. -/
def ScreenshotProcessor.min_x (p : ScreenshotProcessor) : Option Int :=
  listMin (p.screenshots.map Screenshot.xCoordWS)

/-- `ScreenshotProcessor.max_x`. -/
def ScreenshotProcessor.max_x (p : ScreenshotProcessor) : Option Int :=
  listMax (p.screenshots.map Screenshot.xCoordWS)

/-- `ScreenshotProcessor.min_z`. -/
def ScreenshotProcessor.min_z (p : ScreenshotProcessor) : Option Int :=
  listMin (p.screenshots.map Screenshot.zCoordWS)

/-- `ScreenshotProcessor.max_z`. -/
def ScreenshotProcessor.max_z (p : ScreenshotProcessor) : Option Int :=
  listMax (p.screenshots.map Screenshot.zCoordWS)

/-- `ScreenshotProcessor.tile_step_size` (lines 668-676): reads
`screenshots[0]` and `screenshots[1]` unconditionally and returns
`max(|x0-x1|, |z0-z1|)`.  `none` models the `IndexError` raised when the
registry holds fewer than two screenshots. -/
def ScreenshotProcessor.tile_step_size (p : ScreenshotProcessor) : Option Int :=
  match p.screenshots with
  | t0 :: t1 :: _ => some (max |t0.xCoordWS - t1.xCoordWS| |t0.zCoordWS - t1.zCoordWS|)
  | _ => none

/-- `ScreenshotProcessor.find_neighbour` (lines 847-854): look up the
coordinate string of `(x + x_offset, z + z_offset)` in the dict; the caught
`KeyError` becomes `none`. -/
def ScreenshotProcessor.find_neighbour (p : ScreenshotProcessor) (s : Screenshot)
    (x_offset z_offset : Int) : Option Screenshot :=
  dictLookup p.mapped_screenshots
    (Screenshot.make_coordinate_string (s.xCoordWS + x_offset) (s.zCoordWS + z_offset))

/-- The pure output of `composite_screenshot_tiles`: canvas pixel size and,
for every tile in paste order, its paste origin.  Writing the file is
external I/O. -/
structure CompositeResult where
  sizeX : Int
  sizeZ : Int
  pastes : List (Screenshot × Int × Int)
deriving DecidableEq, Repr

/-- The loop body of `composite_screenshot_tiles` (lines 719-737): grid
units relative to the subset minima, z-axis flip, crop-size placement, and
the overlap displacement `int(TILE_OVERLAP * unit)` added only when the
overlap is nonzero. -/
def pasteTriple (tile_min_x tile_min_z step z_unit_range cropSize overlap : Int)
    (t : Screenshot) : Screenshot × Int × Int :=
  let u := t.get_unit_coordinates tile_min_x tile_min_z step
  let z := z_unit_range - u.2 - 1
  let px := if overlap ≠ 0 then u.1 * cropSize + overlap * u.1 else u.1 * cropSize
  let pz := if overlap ≠ 0 then z * cropSize + overlap * z else z * cropSize
  (t, px, pz)

/-- The per-axis unit range of the spec: `floor((max - min) / step) + 1`. -/
def unitRange (lo hi step : Int) : Int := (hi - lo).fdiv step + 1

/-- `ScreenshotProcessor.composite_screenshot_tiles` (lines 692-742), with
the global configuration `TILE_CROP_SIZE` / `TILE_OVERLAP` passed explicitly
as `cropSize` / `overlap`.  Mirrors the source order of failure: the four
`min`/`max` scans over the `tiles` argument run first (raising `ValueError`
on an empty subset, before any canvas exists), then the `tile_step_size`
property is read (raising `IndexError` on a registry of fewer than two
screenshots), then the unit-range divisions (raising `ZeroDivisionError` on
a zero step). -/
def ScreenshotProcessor.composite_screenshot_tiles (p : ScreenshotProcessor)
    (tiles : List Screenshot) (cropSize overlap : Int) : Except String CompositeResult :=
  match listMin (tiles.map Screenshot.xCoordWS), listMin (tiles.map Screenshot.zCoordWS),
      listMax (tiles.map Screenshot.xCoordWS), listMax (tiles.map Screenshot.zCoordWS) with
  | some tile_min_x, some tile_min_z, some tile_max_x, some tile_max_z =>
    match p.tile_step_size with
    | none => Except.error "IndexError: list index out of range"
    | some step =>
      if step = 0 then Except.error "ZeroDivisionError: division by zero"
      else
        let x_unit_range := pyIntOfDiv (tile_max_x - tile_min_x) step + 1
        let z_unit_range := pyIntOfDiv (tile_max_z - tile_min_z) step + 1
        let size_x :=
          if overlap ≠ 0 then x_unit_range * cropSize + (x_unit_range - 1) * overlap
          else x_unit_range * cropSize
        let size_z :=
          if overlap ≠ 0 then z_unit_range * cropSize + (z_unit_range - 1) * overlap
          else z_unit_range * cropSize
        let pastes := (pySort tiles).map
          (pasteTriple tile_min_x tile_min_z step z_unit_range cropSize overlap)
        Except.ok ⟨size_x, size_z, pastes⟩
  | _, _, _, _ => Except.error "ValueError: min() arg is an empty sequence"

/-- The per-tile coordinate computation of `make_initial_tiles` (lines
787-788): `(int(x / step), int(z / step))`, reading `tile_step_size`.
`none` models the `IndexError` on a registry of fewer than two screenshots
(a zero step, reachable only through the duplicate-add slip, would raise
`ZeroDivisionError` and is outside every claim's hypotheses). -/
def ScreenshotProcessor.make_initial_tile_coords (p : ScreenshotProcessor)
    (s : Screenshot) : Option (Int × Int) :=
  p.tile_step_size.map (fun step =>
    (pyIntOfDiv s.xCoordWS step, pyIntOfDiv s.zCoordWS step))

/-- The neighbour probe of the alignment GUI's `find_valid_tile_sets`
(lines 156-158): both lookups read `tile_step_size`, so `none` models the
`IndexError` on a registry of fewer than two screenshots. -/
def ScreenshotProcessor.alignment_probe (p : ScreenshotProcessor) (t : Screenshot) :
    Option (Option Screenshot × Option Screenshot) :=
  p.tile_step_size.map (fun step =>
    (p.find_neighbour t step 0, p.find_neighbour t 0 step))

/-! ### The per-row NCC scoring of `find_best_matching_row` (lines 953-1001)

The source computes in floating point; the model computes the same formulas
in exact arithmetic: pixel rows are lists of rationals and the score is the
real number `numerator / sqrt(denominator²)`.  The script's guard
`denominator == 0` (with `denominator = sqrt(Σ src_norm² * Σ tgt_norm²)`)
holds exactly when the product under the square root is zero, which the
model's guard tests directly. -/

/-- `np.mean(row)`. -/
def rowMean (r : List ℚ) : ℚ := r.sum / (r.length : ℚ)

/-- `row - np.mean(row)`: the zero-mean version of a row. -/
def rowNorm (r : List ℚ) : List ℚ := r.map (fun v => v - rowMean r)

/-- `np.sum(row ** 2)`. -/
def sumSq (r : List ℚ) : ℚ := (r.map (fun v => v * v)).sum

/-- `np.sum(src_norm * tgt_norm)`: the NCC numerator. -/
def nccNumerator (src tgt : List ℚ) : ℚ :=
  (List.zipWith (fun a b => a * b) (rowNorm src) (rowNorm tgt)).sum

/-- `np.sum(src_norm ** 2) * np.sum(tgt_norm ** 2)`: the square of the NCC
denominator. -/
def nccDenomSq (src tgt : List ℚ) : ℚ := sumSq (rowNorm src) * sumSq (rowNorm tgt)

/-- The per-row NCC score: `0` when the denominator is zero (the guarded
branch), `numerator / sqrt(denominator²)` otherwise.  Total — no `NaN`
value and no exception path exists. -/
noncomputable def nccScore (src tgt : List ℚ) : ℝ :=
  if nccDenomSq src tgt = 0 then 0
  else (nccNumerator src tgt : ℝ) / Real.sqrt ((nccDenomSq src tgt : ℝ))

/-- Decimal decoding of a digit list, used only to prove that the
coordinate-string encoding is injective. -/
def decodeChars (l : List Char) : Nat := l.foldl (fun a c => 10 * a + (c.toNat - 48)) 0

/-- Registry invariant maintained by `add_screenshot`: every dict entry's
key is the coordinate string of its value and its value is a registered
screenshot, and every registered screenshot's coordinate string is a dict
key. -/
def RegInv (p : ScreenshotProcessor) : Prop :=
  (∀ kv ∈ p.mapped_screenshots, kv.1 = kv.2.coordinate_string ∧ kv.2 ∈ p.screenshots) ∧
  (∀ s ∈ p.screenshots, ∃ v, dictLookup p.mapped_screenshots s.coordinate_string = some v)

/-- The 2 × 2 example registry of the spec's compositing scenario: tiles at
`(0,0), (100,0), (0,100), (100,100)`. -/
def regFour : ScreenshotProcessor :=
  ScreenshotProcessor.ofAdds
    [⟨0, 0, none, none⟩, ⟨100, 0, none, none⟩, ⟨0, 100, none, none⟩, ⟨100, 100, none, none⟩]

/-! ### Helper lemmas: `listMin` / `listMax` -/

theorem foldlMin_le_init : ∀ (xs : List Int) (a : Int), xs.foldl min a ≤ a := by
  intro xs
  induction xs with
  | nil => intro a; simp
  | cons x xs ih =>
    intro a
    calc (x :: xs).foldl min a = xs.foldl min (min a x) := rfl
    _ ≤ min a x := ih (min a x)
    _ ≤ a := min_le_left a x

theorem foldlMin_le_mem : ∀ (xs : List Int) (a x : Int), x ∈ xs → xs.foldl min a ≤ x := by
  intro xs
  induction xs with
  | nil => intro a x hx; cases hx
  | cons y ys ih =>
    intro a x hx
    rcases List.mem_cons.mp hx with h | h
    · subst h
      calc (x :: ys).foldl min a = ys.foldl min (min a x) := rfl
      _ ≤ min a x := foldlMin_le_init ys (min a x)
      _ ≤ x := min_le_right a x
    · exact ih (min a y) x h

theorem foldlMin_mem : ∀ (xs : List Int) (a : Int), xs.foldl min a = a ∨ xs.foldl min a ∈ xs := by
  intro xs
  induction xs with
  | nil => intro a; left; rfl
  | cons y ys ih =>
    intro a
    rcases ih (min a y) with h | h
    · rw [List.foldl_cons, h]
      rcases min_cases a y with ⟨he, _⟩ | ⟨he, _⟩
      · left; exact he
      · right; rw [he]; exact List.mem_cons_self y ys
    · right; exact List.mem_cons_of_mem y h

theorem listMin_le (l : List Int) (m : Int) (hm : listMin l = some m) :
    ∀ x ∈ l, m ≤ x := by
  cases l with
  | nil => cases hm
  | cons y ys =>
    simp only [listMin, Option.some.injEq] at hm
    intro x hx
    rcases List.mem_cons.mp hx with h | h
    · subst h; rw [← hm]; exact foldlMin_le_init ys x
    · rw [← hm]; exact foldlMin_le_mem ys y x h

theorem listMin_mem (l : List Int) (m : Int) (hm : listMin l = some m) : m ∈ l := by
  cases l with
  | nil => cases hm
  | cons y ys =>
    simp only [listMin, Option.some.injEq] at hm
    rcases foldlMin_mem ys y with h | h
    · rw [← hm, h]; exact List.mem_cons_self y ys
    · rw [← hm]; exact List.mem_cons_of_mem y h

theorem listMin_isSome (l : List Int) (hl : l ≠ []) : ∃ m, listMin l = some m := by
  cases l with
  | nil => exact absurd rfl hl
  | cons y ys => exact ⟨ys.foldl min y, rfl⟩

theorem foldlMax_init_le : ∀ (xs : List Int) (a : Int), a ≤ xs.foldl max a := by
  intro xs
  induction xs with
  | nil => intro a; simp
  | cons x xs ih =>
    intro a
    calc a ≤ max a x := le_max_left a x
    _ ≤ xs.foldl max (max a x) := ih (max a x)
    _ = (x :: xs).foldl max a := rfl

theorem foldlMax_mem_le : ∀ (xs : List Int) (a x : Int), x ∈ xs → x ≤ xs.foldl max a := by
  intro xs
  induction xs with
  | nil => intro a x hx; cases hx
  | cons y ys ih =>
    intro a x hx
    rcases List.mem_cons.mp hx with h | h
    · subst h
      calc x ≤ max a x := le_max_right a x
      _ ≤ ys.foldl max (max a x) := foldlMax_init_le ys (max a x)
      _ = (x :: ys).foldl max a := rfl
    · exact ih (max a y) x h

theorem listMax_ge (l : List Int) (m : Int) (hm : listMax l = some m) :
    ∀ x ∈ l, x ≤ m := by
  cases l with
  | nil => cases hm
  | cons y ys =>
    simp only [listMax, Option.some.injEq] at hm
    intro x hx
    rcases List.mem_cons.mp hx with h | h
    · subst h; rw [← hm]; exact foldlMax_init_le ys x
    · rw [← hm]; exact foldlMax_mem_le ys y x h

theorem listMax_isSome (l : List Int) (hl : l ≠ []) : ∃ m, listMax l = some m := by
  cases l with
  | nil => exact absurd rfl hl
  | cons y ys => exact ⟨ys.foldl max y, rfl⟩

/-! ### Helper lemmas: `pySort` -/

theorem tileLe_total (a b : Screenshot) : tileLe a b = true ∨ tileLe b a = true := by
  simp only [tileLe, Bool.or_eq_true, Bool.and_eq_true, decide_eq_true_eq]
  omega

theorem tileLe_trans (a b c : Screenshot) (hab : tileLe a b = true) (hbc : tileLe b c = true) :
    tileLe a c = true := by
  simp only [tileLe, Bool.or_eq_true, Bool.and_eq_true, decide_eq_true_eq] at hab hbc ⊢
  omega

theorem mem_insertTile (s a : Screenshot) : ∀ l, a ∈ insertTile s l ↔ a = s ∨ a ∈ l := by
  intro l
  induction l with
  | nil => simp [insertTile]
  | cons t ts ih =>
    by_cases h : tileLe s t = true
    · simp [insertTile, h]
    · simp only [insertTile, if_neg h, List.mem_cons, ih]
      tauto

theorem pairwise_insertTile (s : Screenshot) :
    ∀ l, l.Pairwise (fun a b => tileLe a b = true) →
      (insertTile s l).Pairwise (fun a b => tileLe a b = true) := by
  intro l
  induction l with
  | nil => intro _; simp [insertTile]
  | cons t ts ih =>
    intro hl
    rcases List.pairwise_cons.mp hl with ⟨ht, hts⟩
    by_cases h : tileLe s t = true
    · rw [insertTile, if_pos h]
      refine List.pairwise_cons.mpr ⟨?_, hl⟩
      intro b hb
      rcases List.mem_cons.mp hb with hb | hb
      · subst hb; exact h
      · exact tileLe_trans s t b h (ht b hb)
    · rw [insertTile, if_neg h]
      refine List.pairwise_cons.mpr ⟨?_, ih hts⟩
      intro b hb
      rcases (mem_insertTile s b ts).mp hb with hb | hb
      · rw [hb]
        rcases tileLe_total s t with hst | hts'
        · exact absurd hst h
        · exact hts'
      · exact ht b hb

theorem mem_pySort (a : Screenshot) : ∀ l, a ∈ pySort l ↔ a ∈ l := by
  intro l
  induction l with
  | nil => simp [pySort]
  | cons s rest ih =>
    simp only [pySort, mem_insertTile, List.mem_cons, ih]

theorem pairwise_pySort : ∀ l : List Screenshot,
    (pySort l).Pairwise (fun a b => tileLe a b = true) := by
  intro l
  induction l with
  | nil => simp [pySort]
  | cons s rest ih => exact pairwise_insertTile s (pySort rest) ih

theorem pySort_eq_self : ∀ l : List Screenshot,
    l.Pairwise (fun a b => tileLe a b = true) → pySort l = l := by
  intro l
  induction l with
  | nil => intro _; rfl
  | cons s rest ih =>
    intro hl
    rcases List.pairwise_cons.mp hl with ⟨hs, hrest⟩
    rw [pySort, ih hrest]
    cases rest with
    | nil => rfl
    | cons t ts =>
      rw [insertTile, if_pos (hs t (List.mem_cons_self t ts))]

/-! ### Helper lemmas: the dict model -/

theorem dictLookup_eq_some_mem (m : ScreenshotDict) (k : String) (v : Screenshot)
    (h : dictLookup m k = some v) : (k, v) ∈ m := by
  induction m with
  | nil => cases h
  | cons kv rest ih =>
    obtain ⟨k', v'⟩ := kv
    by_cases hk : k' = k
    · rw [dictLookup, if_pos hk] at h
      subst hk
      rw [Option.some.injEq] at h
      subst h
      exact List.mem_cons_self _ _
    · rw [dictLookup, if_neg hk] at h
      exact List.mem_cons_of_mem _ (ih h)

theorem dictLookup_dictInsert_same (m : ScreenshotDict) (k : String) (v : Screenshot) :
    dictLookup (dictInsert m k v) k = some v := by
  induction m with
  | nil => simp [dictInsert, dictLookup]
  | cons kv rest ih =>
    obtain ⟨k', v'⟩ := kv
    by_cases hk : k' = k
    · rw [dictInsert, if_pos hk, dictLookup, if_pos hk]
    · rw [dictInsert, if_neg hk, dictLookup, if_neg hk]
      exact ih

theorem dictLookup_dictInsert_other (m : ScreenshotDict) (k k'' : String) (v : Screenshot)
    (hne : k ≠ k'') : dictLookup (dictInsert m k v) k'' = dictLookup m k'' := by
  induction m with
  | nil => simp [dictInsert, dictLookup, hne]
  | cons kv rest ih =>
    obtain ⟨k', v'⟩ := kv
    by_cases hk : k' = k
    · subst hk
      rw [dictInsert, if_pos rfl, dictLookup, dictLookup, if_neg hne, if_neg hne]
    · rw [dictInsert, if_neg hk, dictLookup, dictLookup]
      by_cases h2 : k' = k''
      · rw [if_pos h2, if_pos h2]
      · rw [if_neg h2, if_neg h2]
        exact ih

theorem mem_dictInsert (m : ScreenshotDict) (k : String) (v : Screenshot) (kv : String × Screenshot)
    (h : kv ∈ dictInsert m k v) : kv ∈ m ∨ kv = (k, v) := by
  induction m with
  | nil =>
    simp only [dictInsert, List.mem_singleton] at h
    exact Or.inr h
  | cons kv' rest ih =>
    obtain ⟨k', v'⟩ := kv'
    by_cases hk : k' = k
    · subst hk
      rw [dictInsert, if_pos rfl] at h
      rcases List.mem_cons.mp h with h | h
      · exact Or.inr (by rw [h])
      · exact Or.inl (List.mem_cons_of_mem _ h)
    · rw [dictInsert, if_neg hk] at h
      rcases List.mem_cons.mp h with h | h
      · exact Or.inl (by rw [h]; exact List.mem_cons_self _ _)
      · rcases ih h with h | h
        · exact Or.inl (List.mem_cons_of_mem _ h)
        · exact Or.inr h

/-! ### The registry invariant maintained by `add_screenshot` -/

theorem regInv_empty : RegInv ScreenshotProcessor.empty := by
  constructor
  · intro kv hkv; cases hkv
  · intro s hs; cases hs

theorem regInv_add (p : ScreenshotProcessor) (s : Screenshot) (hp : RegInv p) :
    RegInv (p.add_screenshot s) := by
  rw [ScreenshotProcessor.add_screenshot]
  by_cases hmem : pyDictMember p.mapped_screenshots s = true
  · rw [if_pos hmem]; exact hp
  · rw [if_neg hmem]
    obtain ⟨h1, h2⟩ := hp
    constructor
    · intro kv hkv
      rcases mem_dictInsert _ _ _ kv hkv with h | h
      · obtain ⟨hk, hv⟩ := h1 kv h
        refine ⟨hk, ?_⟩
        rw [mem_pySort, List.mem_append]
        exact Or.inl hv
      · subst h
        refine ⟨rfl, ?_⟩
        rw [mem_pySort, List.mem_append]
        exact Or.inr (List.mem_singleton.mpr rfl)
    · intro t ht
      rw [mem_pySort, List.mem_append] at ht
      by_cases hkey : s.coordinate_string = t.coordinate_string
      · rw [← hkey]
        exact ⟨s, dictLookup_dictInsert_same _ _ _⟩
      · rcases ht with ht | ht
        · obtain ⟨v, hv⟩ := h2 t ht
          refine ⟨v, ?_⟩
          rw [dictLookup_dictInsert_other _ _ _ _ hkey]
          exact hv
        · rw [List.mem_singleton] at ht
          subst ht
          exact absurd rfl hkey

theorem regInv_foldl (l : List Screenshot) :
    ∀ p : ScreenshotProcessor, RegInv p →
      RegInv (l.foldl ScreenshotProcessor.add_screenshot p) := by
  induction l with
  | nil => intro p hp; exact hp
  | cons s rest ih =>
    intro p hp
    exact ih (p.add_screenshot s) (regInv_add p s hp)

theorem regInv_ofAdds (l : List Screenshot) : RegInv (ScreenshotProcessor.ofAdds l) :=
  regInv_foldl l ScreenshotProcessor.empty regInv_empty

/-- The screenshots list of a built registry is sorted by the coordinate
pair (every `add_screenshot` re-sorts). -/
theorem pairwise_ofAdds (l : List Screenshot) :
    (ScreenshotProcessor.ofAdds l).screenshots.Pairwise (fun a b => tileLe a b = true) := by
  have main : ∀ (ls : List Screenshot) (p : ScreenshotProcessor),
      p.screenshots.Pairwise (fun a b => tileLe a b = true) →
      (ls.foldl ScreenshotProcessor.add_screenshot p).screenshots.Pairwise
        (fun a b => tileLe a b = true) := by
    intro ls
    induction ls with
    | nil => intro p hp; exact hp
    | cons s rest ih =>
      intro p hp
      refine ih (p.add_screenshot s) ?_
      rw [ScreenshotProcessor.add_screenshot]
      by_cases hmem : pyDictMember p.mapped_screenshots s = true
      · rw [if_pos hmem]; exact hp
      · rw [if_neg hmem]; exact pairwise_pySort _
  exact main l ScreenshotProcessor.empty (by simp [ScreenshotProcessor.empty])

/-! ### Injectivity of the coordinate-string key

`find_neighbour` and the dict invariant identify tiles through the string
rendered from `Screenshot_`, `x`, `_`, `z`; the lemmas here show that this
encoding determines the coordinate pair. -/

theorem digitChar_ne_underscore : ∀ m, m < 10 → Nat.digitChar m ≠ '_' := by decide

theorem digitChar_ne_minus : ∀ m, m < 10 → Nat.digitChar m ≠ '-' := by decide

theorem digitChar_decode : ∀ m, m < 10 → (Nat.digitChar m).toNat - 48 = m := by decide

theorem natChars_mem : ∀ (fuel n : Nat) (c : Char), c ∈ natChars fuel n →
    ∃ m, m < 10 ∧ c = Nat.digitChar m := by
  intro fuel
  induction fuel with
  | zero => intro n c hc; cases hc
  | succ fuel ih =>
    intro n c hc
    rw [natChars] at hc
    by_cases h : n < 10
    · rw [if_pos h, List.mem_singleton] at hc
      exact ⟨n, h, hc⟩
    · rw [if_neg h, List.mem_append] at hc
      rcases hc with hc | hc
      · exact ih (n / 10) c hc
      · rw [List.mem_singleton] at hc
        exact ⟨n % 10, Nat.mod_lt n (by omega), hc⟩

theorem natChars_ne_nil (fuel n : Nat) (h : 0 < fuel) : natChars fuel n ≠ [] := by
  cases fuel with
  | zero => omega
  | succ fuel =>
    rw [natChars]
    by_cases h10 : n < 10
    · rw [if_pos h10]; simp
    · rw [if_neg h10]; simp

theorem decodeChars_snoc (l : List Char) (c : Char) :
    decodeChars (l ++ [c]) = 10 * decodeChars l + (c.toNat - 48) := by
  rw [decodeChars, List.foldl_append]
  rfl

theorem natChars_decode : ∀ fuel n, n < fuel → decodeChars (natChars fuel n) = n := by
  intro fuel
  induction fuel with
  | zero => intro n h; omega
  | succ fuel ih =>
    intro n h
    rw [natChars]
    by_cases h10 : n < 10
    · rw [if_pos h10]
      show 10 * 0 + ((Nat.digitChar n).toNat - 48) = n
      rw [digitChar_decode n h10]
      omega
    · rw [if_neg h10, decodeChars_snoc]
      have hrec : n / 10 < fuel := by omega
      rw [ih (n / 10) hrec, digitChar_decode (n % 10) (Nat.mod_lt n (by omega))]
      omega

theorem pyStrNatChars_inj (a b : Nat) (h : pyStrNatChars a = pyStrNatChars b) : a = b := by
  have ha := natChars_decode (a + 1) a (Nat.lt_succ_self a)
  have hb := natChars_decode (b + 1) b (Nat.lt_succ_self b)
  rw [pyStrNatChars] at h
  rw [h, pyStrNatChars] at ha
  rw [hb] at ha
  omega

theorem pyStrNatChars_head_digit (n : Nat) :
    ∃ m tl, m < 10 ∧ pyStrNatChars n = Nat.digitChar m :: tl := by
  rcases hl : pyStrNatChars n with _ | ⟨hd, tl⟩
  · exact absurd hl (natChars_ne_nil (n + 1) n (Nat.succ_pos n))
  · have hhd : hd ∈ natChars (n + 1) n := by
      rw [← pyStrNatChars, hl]; exact List.mem_cons_self hd tl
    obtain ⟨m, hm, hc⟩ := natChars_mem (n + 1) n hd hhd
    exact ⟨m, tl, hm, by rw [← hc]⟩

theorem pyStrIntChars_no_underscore (i : Int) (c : Char) (hc : c ∈ pyStrIntChars i) :
    c ≠ '_' := by
  cases i with
  | ofNat m =>
    obtain ⟨d, hd, he⟩ := natChars_mem (m + 1) m c hc
    rw [he]; exact digitChar_ne_underscore d hd
  | negSucc m =>
    rw [pyStrIntChars, List.mem_cons] at hc
    rcases hc with hc | hc
    · rw [hc]; decide
    · obtain ⟨d, hd, he⟩ := natChars_mem (m + 2) (m + 1) c hc
      rw [he]; exact digitChar_ne_underscore d hd

theorem pyStrIntChars_inj (a b : Int) (h : pyStrIntChars a = pyStrIntChars b) : a = b := by
  cases a with
  | ofNat ma =>
    cases b with
    | ofNat mb =>
      rw [pyStrIntChars, pyStrIntChars] at h
      rw [pyStrNatChars_inj ma mb h]
    | negSucc mb =>
      rw [pyStrIntChars, pyStrIntChars] at h
      obtain ⟨d, tl, hd, he⟩ := pyStrNatChars_head_digit ma
      rw [he, List.cons.injEq] at h
      exact absurd h.1 (digitChar_ne_minus d hd)
  | negSucc ma =>
    cases b with
    | ofNat mb =>
      rw [pyStrIntChars, pyStrIntChars] at h
      obtain ⟨d, tl, hd, he⟩ := pyStrNatChars_head_digit mb
      rw [he, List.cons.injEq] at h
      exact absurd h.1.symm (digitChar_ne_minus d hd)
    | negSucc mb =>
      rw [pyStrIntChars, pyStrIntChars, List.cons.injEq] at h
      have hab := pyStrNatChars_inj (ma + 1) (mb + 1) h.2
      have hab' : ma = mb := by omega
      rw [hab']

theorem split_underscore :
    ∀ (a1 : List Char) (b1 : List Char) (a2 : List Char) (b2 : List Char),
      '_' ∉ a1 → '_' ∉ a2 → a1 ++ '_' :: b1 = a2 ++ '_' :: b2 → a1 = a2 ∧ b1 = b2 := by
  intro a1
  induction a1 with
  | nil =>
    intro b1 a2 b2 _ h2 heq
    cases a2 with
    | nil =>
      rw [List.nil_append, List.nil_append, List.cons.injEq] at heq
      exact ⟨rfl, heq.2⟩
    | cons c cs =>
      rw [List.nil_append, List.cons_append, List.cons.injEq] at heq
      exact absurd (heq.1 ▸ List.mem_cons_self c cs) (by rw [← heq.1] at h2; exact h2)
  | cons c cs ih =>
    intro b1 a2 b2 h1 h2 heq
    cases a2 with
    | nil =>
      rw [List.nil_append, List.cons_append, List.cons.injEq] at heq
      exact absurd (heq.1 ▸ List.mem_cons_self c cs) (by rw [heq.1] at h1; exact h1)
    | cons d ds =>
      rw [List.cons_append, List.cons_append, List.cons.injEq] at heq
      have hcs : '_' ∉ cs := fun hm => h1 (List.mem_cons_of_mem c hm)
      have hds : '_' ∉ ds := fun hm => h2 (List.mem_cons_of_mem d hm)
      obtain ⟨hA, hB⟩ := ih b1 ds b2 hcs hds heq.2
      exact ⟨by rw [heq.1, hA], hB⟩

theorem string_data_append (s t : String) : (s ++ t).data = s.data ++ t.data := by
  cases s; cases t; rfl

theorem make_coordinate_string_data (x z : Int) :
    (Screenshot.make_coordinate_string x z).data =
      "Screenshot_".data ++ (pyStrIntChars x ++ '_' :: pyStrIntChars z) := by
  rw [Screenshot.make_coordinate_string, string_data_append, string_data_append,
    string_data_append]
  rw [List.append_assoc, List.append_assoc]
  rfl

theorem make_coordinate_string_inj (x1 z1 x2 z2 : Int)
    (h : Screenshot.make_coordinate_string x1 z1 = Screenshot.make_coordinate_string x2 z2) :
    x1 = x2 ∧ z1 = z2 := by
  have hdata := congrArg String.data h
  rw [make_coordinate_string_data, make_coordinate_string_data] at hdata
  have hsplit := List.append_cancel_left hdata
  have h1 : '_' ∉ pyStrIntChars x1 := fun hm => pyStrIntChars_no_underscore x1 '_' hm rfl
  have h2 : '_' ∉ pyStrIntChars x2 := fun hm => pyStrIntChars_no_underscore x2 '_' hm rfl
  obtain ⟨hx, hz⟩ := split_underscore _ _ _ _ h1 h2 hsplit
  exact ⟨pyStrIntChars_inj x1 x2 hx, pyStrIntChars_inj z1 z2 hz⟩

/-! ### Claim theorems -/

/-- Claim C1 (code bug, evaluation at the failing input): adding two tiles
with identical coordinates `(0, 0)` to an empty registry is *not* an
idempotent no-op.  Because `screenshot in mapped_screenshots` compares the
`Screenshot` probe against the dict's `str` keys (see
`pyEqKeyScreenshot`), the duplicate check never fires: the second add
appends a second list entry (registry size 2, not 1) and overwrites the
dict entry, so the *last*-seen tile wins in the map. -/
theorem add_screenshot_duplicate_not_ignored :
    (ScreenshotProcessor.ofAdds
        [⟨0, 0, some "a.png", none⟩, ⟨0, 0, some "b.png", none⟩]).screenshots.length = 2 ∧
    dictLookup
        (ScreenshotProcessor.ofAdds
          [⟨0, 0, some "a.png", none⟩, ⟨0, 0, some "b.png", none⟩]).mapped_screenshots
        (Screenshot.make_coordinate_string 0 0) = some ⟨0, 0, some "b.png", none⟩ := by
  constructor
  · rfl
  · rfl

/-- Claim C4: for the registry holding exactly the tiles
`(0,0), (100,0), (0,100), (100,100)` — whose inferred step size is 100 —
compositing with crop size 50 and overlap 0 yields a 100 × 100 canvas, and
the tile at `(0, 0)` is pasted at pixel origin `(0, 50)` (bottom-left cell,
because `z = 0` is the smallest z and the z axis is inverted). -/
theorem composite_2x2_scenario :
    regFour.tile_step_size = some 100 ∧
    regFour.composite_screenshot_tiles regFour.screenshots 50 0 =
      Except.ok ⟨100, 100,
        [(⟨0, 0, none, none⟩, 0, 50), (⟨0, 100, none, none⟩, 0, 0),
         (⟨100, 0, none, none⟩, 50, 50), (⟨100, 100, none, none⟩, 50, 0)]⟩ ∧
    (⟨0, 0, none, none⟩, (0 : Int), (50 : Int)) ∈
      ([(⟨0, 0, none, none⟩, 0, 50), (⟨0, 100, none, none⟩, 0, 0),
        (⟨100, 0, none, none⟩, 50, 50), (⟨100, 100, none, none⟩, 50, 0)] :
        List (Screenshot × Int × Int)) := by
  refine ⟨rfl, rfl, ?_⟩
  decide

/-- Claim C7: for every registry (built through `add_screenshot`) holding at
least two tiles, `tile_step_size` is `max(|x0 - x1|, |z0 - z1|)` of the
first two tiles of the list, and the list coincides with its own
`(x, z)`-ascending stable sort — so those two tiles are exactly the first
two in sort order. -/
theorem tile_step_size_first_two_sorted (l : List Screenshot) (t0 t1 : Screenshot)
    (rest : List Screenshot)
    (h : (ScreenshotProcessor.ofAdds l).screenshots = t0 :: t1 :: rest) :
    (ScreenshotProcessor.ofAdds l).tile_step_size =
      some (max |t0.xCoordWS - t1.xCoordWS| |t0.zCoordWS - t1.zCoordWS|) ∧
    pySort (ScreenshotProcessor.ofAdds l).screenshots =
      (ScreenshotProcessor.ofAdds l).screenshots := by
  constructor
  · rw [ScreenshotProcessor.tile_step_size, h]
  · exact pySort_eq_self _ (pairwise_ofAdds l)

/-- Witness for C7 at a concrete registry: two tiles added out of order;
the sorted first pair is `(0, 30), (100, 0)` and the step is 100. -/
theorem tile_step_size_first_two_sorted_app :
    (ScreenshotProcessor.ofAdds
        [⟨100, 0, none, none⟩, ⟨0, 30, none, none⟩]).screenshots =
      [⟨0, 30, none, none⟩, ⟨100, 0, none, none⟩] ∧
    (ScreenshotProcessor.ofAdds
        [⟨100, 0, none, none⟩, ⟨0, 30, none, none⟩]).tile_step_size = some 100 ∧
    pySort (ScreenshotProcessor.ofAdds
        [⟨100, 0, none, none⟩, ⟨0, 30, none, none⟩]).screenshots =
      (ScreenshotProcessor.ofAdds
        [⟨100, 0, none, none⟩, ⟨0, 30, none, none⟩]).screenshots := by
  have h := tile_step_size_first_two_sorted
    [⟨100, 0, none, none⟩, ⟨0, 30, none, none⟩]
    ⟨0, 30, none, none⟩ ⟨100, 0, none, none⟩ [] (by decide)
  refine ⟨by decide, ?_, h.2⟩
  rw [h.1]
  decide

/-- Claim C8 (counterexample): `get_unit_coordinates` does *not* return
`floor((coord - minCoord) / stepSize)` when `coord < minCoord`: at
`coord = -50, minCoord = 0, stepSize = 100` the code returns
`int(-0.5) = 0` while the floor is `-1`. -/
theorem get_unit_coordinates_not_floor :
    ¬ ((Screenshot.get_unit_coordinates ⟨-50, 0, none, none⟩ 0 0 100).1 =
        ((-50 : Int) - 0).fdiv 100) := by
  decide

/-- Claim C8 (amended): for `stepSize > 0`, `get_unit_coordinates` returns
the quotient `(coord - minCoord) / stepSize` truncated toward zero (Python
`int()`), which agrees with the floor exactly when the coordinate is at or
above the minimum on that axis. -/
theorem get_unit_coordinates_truncates (s : Screenshot) (min_x min_z step : Int)
    (hstep : 0 < step) :
    s.get_unit_coordinates min_x min_z step =
      ((s.xCoordWS - min_x).tdiv step, (s.zCoordWS - min_z).tdiv step) ∧
    (min_x ≤ s.xCoordWS →
      (s.get_unit_coordinates min_x min_z step).1 = (s.xCoordWS - min_x).fdiv step) ∧
    (min_z ≤ s.zCoordWS →
      (s.get_unit_coordinates min_x min_z step).2 = (s.zCoordWS - min_z).fdiv step) := by
  refine ⟨rfl, ?_, ?_⟩
  · intro hx
    show (s.xCoordWS - min_x).tdiv step = (s.xCoordWS - min_x).fdiv step
    rw [Int.tdiv_eq_ediv (by omega) (le_of_lt hstep), Int.fdiv_eq_ediv _ (le_of_lt hstep)]
  · intro hz
    show (s.zCoordWS - min_z).tdiv step = (s.zCoordWS - min_z).fdiv step
    rw [Int.tdiv_eq_ediv (by omega) (le_of_lt hstep), Int.fdiv_eq_ediv _ (le_of_lt hstep)]

/-- Witness for the amended C8 at a concrete tile and positive step. -/
theorem get_unit_coordinates_truncates_app :
    (0 : Int) < 100 ∧
    (Screenshot.get_unit_coordinates ⟨250, -30, none, none⟩ 100 (-100) 100 =
        (((250 : Int) - 100).tdiv 100, ((-30 : Int) - (-100)).tdiv 100) ∧
      ((100 : Int) ≤ 250 →
        (Screenshot.get_unit_coordinates ⟨250, -30, none, none⟩ 100 (-100) 100).1 =
          ((250 : Int) - 100).fdiv 100) ∧
      ((-100 : Int) ≤ -30 →
        (Screenshot.get_unit_coordinates ⟨250, -30, none, none⟩ 100 (-100) 100).2 =
          ((-30 : Int) - (-100)).fdiv 100)) :=
  ⟨by decide, get_unit_coordinates_truncates ⟨250, -30, none, none⟩ 100 (-100) 100 (by decide)⟩

/-- Claim C9: compositing an empty tile subset fails with the `min`-raised
error before any canvas is computed, and the bounds scans of an empty
registry fail (model: `none`) rather than returning a default. -/
theorem empty_inputs_fail :
    (∀ (p : ScreenshotProcessor) (cropSize overlap : Int),
      p.composite_screenshot_tiles [] cropSize overlap =
        Except.error "ValueError: min() arg is an empty sequence") ∧
    ScreenshotProcessor.empty.min_x = none ∧ ScreenshotProcessor.empty.max_x = none ∧
    ScreenshotProcessor.empty.min_z = none ∧ ScreenshotProcessor.empty.max_z = none :=
  ⟨fun _ _ _ => rfl, rfl, rfl, rfl, rfl⟩

/-- Claim C10: a registry holding fewer than two screenshots makes
`tile_step_size` fail (model: `none`, the `IndexError` of reading
`screenshots[1]`), and with it every consumer of the step size: compositing
any nonempty tile subset, the initial-tile coordinate computation, and the
alignment GUI's neighbour probe. -/
theorem step_size_requires_two_tiles (p : ScreenshotProcessor)
    (h : p.screenshots.length < 2) :
    p.tile_step_size = none ∧
    (∀ (tiles : List Screenshot) (cropSize overlap : Int), tiles ≠ [] →
      p.composite_screenshot_tiles tiles cropSize overlap =
        Except.error "IndexError: list index out of range") ∧
    (∀ s, p.make_initial_tile_coords s = none) ∧
    (∀ t, p.alignment_probe t = none) := by
  have hstep : p.tile_step_size = none := by
    match hl : p.screenshots with
    | [] => rw [ScreenshotProcessor.tile_step_size, hl]
    | [_] => rw [ScreenshotProcessor.tile_step_size, hl]
    | _ :: _ :: _ =>
      rw [hl] at h
      simp only [List.length_cons] at h
      omega
  refine ⟨hstep, ?_, ?_, ?_⟩
  · intro tiles cropSize overlap hne
    obtain ⟨m1, h1⟩ := listMin_isSome (tiles.map Screenshot.xCoordWS)
      (by simpa using hne)
    obtain ⟨m2, h2⟩ := listMin_isSome (tiles.map Screenshot.zCoordWS)
      (by simpa using hne)
    obtain ⟨m3, h3⟩ := listMax_isSome (tiles.map Screenshot.xCoordWS)
      (by simpa using hne)
    obtain ⟨m4, h4⟩ := listMax_isSome (tiles.map Screenshot.zCoordWS)
      (by simpa using hne)
    rw [ScreenshotProcessor.composite_screenshot_tiles, h1, h2, h3, h4, hstep]
  · intro s
    rw [ScreenshotProcessor.make_initial_tile_coords, hstep, Option.map_none']
  · intro t
    rw [ScreenshotProcessor.alignment_probe, hstep, Option.map_none']

/-- Witness for C10 at the empty registry and a singleton tile subset. -/
theorem step_size_requires_two_tiles_app :
    ScreenshotProcessor.empty.screenshots.length < 2 ∧
    ScreenshotProcessor.empty.tile_step_size = none ∧
    ScreenshotProcessor.empty.composite_screenshot_tiles [⟨0, 0, none, none⟩] 50 0 =
      Except.error "IndexError: list index out of range" ∧
    ScreenshotProcessor.empty.make_initial_tile_coords ⟨0, 0, none, none⟩ = none ∧
    ScreenshotProcessor.empty.alignment_probe ⟨0, 0, none, none⟩ = none := by
  have h := step_size_requires_two_tiles ScreenshotProcessor.empty (by decide)
  exact ⟨by decide, h.1, h.2.1 [⟨0, 0, none, none⟩] 50 0 (by decide),
    h.2.2.1 ⟨0, 0, none, none⟩, h.2.2.2 ⟨0, 0, none, none⟩⟩

/-- Claim C6: for every registry built through `add_screenshot`, every probe
tile `t` and offsets `(dx, dz)`, `find_neighbour` returns a registered tile
whose coordinates equal `(t.x + dx, t.z + dz)` whenever one is registered,
and `none` (the caught `KeyError`, not an uncaught exception — the model is
total) when none is. -/
theorem find_neighbour_lookup (l : List Screenshot) (t : Screenshot) (dx dz : Int) :
    ((∃ u ∈ (ScreenshotProcessor.ofAdds l).screenshots,
        u.xCoordWS = t.xCoordWS + dx ∧ u.zCoordWS = t.zCoordWS + dz) →
      ∃ v, (ScreenshotProcessor.ofAdds l).find_neighbour t dx dz = some v ∧
        v ∈ (ScreenshotProcessor.ofAdds l).screenshots ∧
        v.xCoordWS = t.xCoordWS + dx ∧ v.zCoordWS = t.zCoordWS + dz) ∧
    ((¬ ∃ u ∈ (ScreenshotProcessor.ofAdds l).screenshots,
        u.xCoordWS = t.xCoordWS + dx ∧ u.zCoordWS = t.zCoordWS + dz) →
      (ScreenshotProcessor.ofAdds l).find_neighbour t dx dz = none) := by
  obtain ⟨hinv1, hinv2⟩ := regInv_ofAdds l
  constructor
  · rintro ⟨u, hu, hux, huz⟩
    have hkey : u.coordinate_string =
        Screenshot.make_coordinate_string (t.xCoordWS + dx) (t.zCoordWS + dz) := by
      rw [Screenshot.coordinate_string, hux, huz]
    obtain ⟨v, hv⟩ := hinv2 u hu
    have hfind : (ScreenshotProcessor.ofAdds l).find_neighbour t dx dz = some v := by
      rw [ScreenshotProcessor.find_neighbour, ← hkey]
      exact hv
    obtain ⟨hk, hreg⟩ := hinv1 _ (dictLookup_eq_some_mem _ _ _ hv)
    dsimp only at hk hreg
    have hvkey : Screenshot.make_coordinate_string (t.xCoordWS + dx) (t.zCoordWS + dz) =
        Screenshot.make_coordinate_string v.xCoordWS v.zCoordWS := by
      rw [← hkey, hk]
      rfl
    obtain ⟨hvx, hvz⟩ := make_coordinate_string_inj _ _ _ _ hvkey
    exact ⟨v, hfind, hreg, hvx.symm, hvz.symm⟩
  · intro hnone
    rcases hfind : (ScreenshotProcessor.ofAdds l).find_neighbour t dx dz with _ | v
    · rfl
    · exfalso
      rw [ScreenshotProcessor.find_neighbour] at hfind
      obtain ⟨hk, hreg⟩ := hinv1 _ (dictLookup_eq_some_mem _ _ _ hfind)
      dsimp only at hk hreg
      have hvkey : Screenshot.make_coordinate_string (t.xCoordWS + dx) (t.zCoordWS + dz) =
          Screenshot.make_coordinate_string v.xCoordWS v.zCoordWS := by
        rw [hk]
        rfl
      obtain ⟨hvx, hvz⟩ := make_coordinate_string_inj _ _ _ _ hvkey
      exact hnone ⟨v, hreg, hvx.symm, hvz.symm⟩

/-- Witness for C6 at a concrete two-tile registry: the neighbour at
`(+100, 0)` of `(0, 0)` is found, and the probe at `(+300, 0)` returns
`none`. -/
theorem find_neighbour_lookup_app :
    (∃ v, (ScreenshotProcessor.ofAdds
          [⟨0, 0, none, none⟩, ⟨100, 0, none, none⟩]).find_neighbour
        ⟨0, 0, none, none⟩ 100 0 = some v ∧
      v ∈ (ScreenshotProcessor.ofAdds
          [⟨0, 0, none, none⟩, ⟨100, 0, none, none⟩]).screenshots ∧
      v.xCoordWS = 0 + 100 ∧ v.zCoordWS = 0 + 0) ∧
    (ScreenshotProcessor.ofAdds
        [⟨0, 0, none, none⟩, ⟨100, 0, none, none⟩]).find_neighbour
      ⟨0, 0, none, none⟩ 300 0 = none := by
  constructor
  · exact (find_neighbour_lookup [⟨0, 0, none, none⟩, ⟨100, 0, none, none⟩]
      ⟨0, 0, none, none⟩ 100 0).1 (by decide)
  · exact (find_neighbour_lookup [⟨0, 0, none, none⟩, ⟨100, 0, none, none⟩]
      ⟨0, 0, none, none⟩ 300 0).2 (by decide)

/-- Claim C2: for a nonempty tile subset, positive step and crop sizes and
any overlap, the composited canvas is `unitRange * cropSize +
(unitRange - 1) * overlap` per axis with `unitRange = floor((max - min)
/ step) + 1`; on an `m × n` full grid this is `m*cropSize - (m-1)*k` by
`n*cropSize - (n-1)*k` for the shift-together overlap `k` (the code stores
it negated), and exactly `m*cropSize` by `n*cropSize` at overlap 0. -/
theorem composite_canvas_size (p : ScreenshotProcessor) (tiles : List Screenshot)
    (cropSize overlap step minx minz maxx maxz : Int)
    (hminx : listMin (tiles.map Screenshot.xCoordWS) = some minx)
    (hminz : listMin (tiles.map Screenshot.zCoordWS) = some minz)
    (hmaxx : listMax (tiles.map Screenshot.xCoordWS) = some maxx)
    (hmaxz : listMax (tiles.map Screenshot.zCoordWS) = some maxz)
    (hstep : p.tile_step_size = some step) (hpos : 0 < step) (hcrop : 0 < cropSize) :
    ∃ r, p.composite_screenshot_tiles tiles cropSize overlap = Except.ok r ∧
      r.sizeX = unitRange minx maxx step * cropSize +
        (unitRange minx maxx step - 1) * overlap ∧
      r.sizeZ = unitRange minz maxz step * cropSize +
        (unitRange minz maxz step - 1) * overlap ∧
      (∀ m n k : Int, maxx - minx = (m - 1) * step → maxz - minz = (n - 1) * step →
        (overlap = -k → r.sizeX = m * cropSize - (m - 1) * k ∧
          r.sizeZ = n * cropSize - (n - 1) * k) ∧
        (overlap = 0 → r.sizeX = m * cropSize ∧ r.sizeZ = n * cropSize)) := by
  have hstep0 : ¬ step = 0 := by omega
  have hxle : minx ≤ maxx := listMax_ge _ _ hmaxx minx (listMin_mem _ _ hminx)
  have hzle : minz ≤ maxz := listMax_ge _ _ hmaxz minz (listMin_mem _ _ hminz)
  have hconvx : pyIntOfDiv (maxx - minx) step = (maxx - minx).fdiv step := by
    rw [pyIntOfDiv, Int.tdiv_eq_ediv (by omega) (by omega), Int.fdiv_eq_ediv _ (by omega)]
  have hconvz : pyIntOfDiv (maxz - minz) step = (maxz - minz).fdiv step := by
    rw [pyIntOfDiv, Int.tdiv_eq_ediv (by omega) (by omega), Int.fdiv_eq_ediv _ (by omega)]
  simp only [ScreenshotProcessor.composite_screenshot_tiles, hminx, hminz, hmaxx, hmaxz,
    hstep, if_neg hstep0]
  refine ⟨_, rfl, ?_⟩
  have hsx : (if overlap ≠ 0 then
        (pyIntOfDiv (maxx - minx) step + 1) * cropSize +
          (pyIntOfDiv (maxx - minx) step + 1 - 1) * overlap
      else (pyIntOfDiv (maxx - minx) step + 1) * cropSize) =
      unitRange minx maxx step * cropSize + (unitRange minx maxx step - 1) * overlap := by
    rw [unitRange, ← hconvx]
    by_cases ho : overlap = 0
    · rw [if_neg (by simp [ho]), ho]
      ring
    · rw [if_pos ho]
  have hsz : (if overlap ≠ 0 then
        (pyIntOfDiv (maxz - minz) step + 1) * cropSize +
          (pyIntOfDiv (maxz - minz) step + 1 - 1) * overlap
      else (pyIntOfDiv (maxz - minz) step + 1) * cropSize) =
      unitRange minz maxz step * cropSize + (unitRange minz maxz step - 1) * overlap := by
    rw [unitRange, ← hconvz]
    by_cases ho : overlap = 0
    · rw [if_neg (by simp [ho]), ho]
      ring
    · rw [if_pos ho]
  refine ⟨hsx, hsz, ?_⟩
  intro m n k hm hn
  have hurx : unitRange minx maxx step = m := by
    rw [unitRange, hm, Int.mul_fdiv_cancel _ hstep0]
    ring
  have hurz : unitRange minz maxz step = n := by
    rw [unitRange, hn, Int.mul_fdiv_cancel _ hstep0]
    ring
  constructor
  · intro hok
    constructor
    · rw [hsx, hurx, hok]; ring
    · rw [hsz, hurz, hok]; ring
  · intro ho
    constructor
    · rw [hsx, hurx, ho]; ring
    · rw [hsz, hurz, ho]; ring

/-- Witness for C2 at the 2 × 2 example registry, crop size 50 and code
overlap `-7` (a shift-together overlap of 7): the canvas is 93 × 93, which
is `2*50 - 1*7` per axis. -/
theorem composite_canvas_size_app :
    ∃ r, regFour.composite_screenshot_tiles regFour.screenshots 50 (-7) = Except.ok r ∧
      r.sizeX = 93 ∧ r.sizeZ = 93 := by
  obtain ⟨r, hr, hx, hz, hgrid⟩ := composite_canvas_size regFour regFour.screenshots
    50 (-7) 100 0 0 100 100 (by decide) (by decide) (by decide) (by decide)
    (by decide) (by decide) (by decide)
  obtain ⟨hk, _⟩ := hgrid 2 2 7 (by decide) (by decide)
  obtain ⟨hx93, hz93⟩ := hk (by decide)
  exact ⟨r, hr, by rw [hx93]; decide, by rw [hz93]; decide⟩

/-- Both overlap branches of the paste computation collapse to a single
product: a tile at flipped z unit `Z - uz - 1` is pasted at
`(ux * (cropSize + overlap), (Z - uz - 1) * (cropSize + overlap))`. -/
theorem pasteTriple_eval (minx minz step Z cropSize overlap : Int) (t : Screenshot) :
    pasteTriple minx minz step Z cropSize overlap t =
      (t, (t.get_unit_coordinates minx minz step).1 * (cropSize + overlap),
        (Z - (t.get_unit_coordinates minx minz step).2 - 1) * (cropSize + overlap)) := by
  by_cases ho : overlap = 0
  · subst ho
    simp only [pasteTriple]
    rw [if_neg (show ¬ ((0 : Int) ≠ 0) by simp), if_neg (show ¬ ((0 : Int) ≠ 0) by simp),
      add_zero]
  · have h1 : (t.get_unit_coordinates minx minz step).1 * cropSize +
        overlap * (t.get_unit_coordinates minx minz step).1 =
        (t.get_unit_coordinates minx minz step).1 * (cropSize + overlap) := by ring
    have h2 : (Z - (t.get_unit_coordinates minx minz step).2 - 1) * cropSize +
        overlap * (Z - (t.get_unit_coordinates minx minz step).2 - 1) =
        (Z - (t.get_unit_coordinates minx minz step).2 - 1) * (cropSize + overlap) := by ring
    simp only [pasteTriple, if_pos ho, h1, h2]

/-- Claim C3: every composited tile is pasted at exactly
`(ux*cropSize + ux*overlap, uz2*cropSize + uz2*overlap)` where `(ux, uz)`
are its grid units relative to the subset minima and `uz2 = zUnitRange -
uz - 1` is the inverted z unit; the tile with the smallest world z gets
`uz = 0`, hence the largest inverted unit, hence (for a nonnegative
effective tile pitch `cropSize + overlap`) the largest paste z — the
bottom row of the output image. -/
theorem composite_paste_placement (p : ScreenshotProcessor) (tiles : List Screenshot)
    (cropSize overlap step minx minz maxx maxz : Int)
    (hminx : listMin (tiles.map Screenshot.xCoordWS) = some minx)
    (hminz : listMin (tiles.map Screenshot.zCoordWS) = some minz)
    (hmaxx : listMax (tiles.map Screenshot.xCoordWS) = some maxx)
    (hmaxz : listMax (tiles.map Screenshot.zCoordWS) = some maxz)
    (hstep : p.tile_step_size = some step) (hpos : 0 < step)
    (t : Screenshot) (ht : t ∈ tiles) :
    ∃ r, p.composite_screenshot_tiles tiles cropSize overlap = Except.ok r ∧
      (t,
        (t.get_unit_coordinates minx minz step).1 * cropSize +
          (t.get_unit_coordinates minx minz step).1 * overlap,
        (unitRange minz maxz step - (t.get_unit_coordinates minx minz step).2 - 1) * cropSize +
          (unitRange minz maxz step - (t.get_unit_coordinates minx minz step).2 - 1) * overlap)
        ∈ r.pastes ∧
      (t.zCoordWS = minz → 0 ≤ cropSize + overlap →
        (t.get_unit_coordinates minx minz step).2 = 0 ∧
        ∀ q ∈ r.pastes, q.2.2 ≤ (unitRange minz maxz step - 1) * cropSize +
          (unitRange minz maxz step - 1) * overlap) := by
  have hstep0 : ¬ step = 0 := by omega
  have hzle : minz ≤ maxz := listMax_ge _ _ hmaxz minz (listMin_mem _ _ hminz)
  have hconvz : pyIntOfDiv (maxz - minz) step = (maxz - minz).fdiv step := by
    rw [pyIntOfDiv, Int.tdiv_eq_ediv (by omega) (by omega), Int.fdiv_eq_ediv _ (by omega)]
  have hur : unitRange minz maxz step = pyIntOfDiv (maxz - minz) step + 1 := by
    rw [unitRange, ← hconvz]
  simp only [ScreenshotProcessor.composite_screenshot_tiles, hminx, hminz, hmaxx, hmaxz,
    hstep, if_neg hstep0]
  refine ⟨_, rfl, ?_, ?_⟩
  · have heq : (t,
          (t.get_unit_coordinates minx minz step).1 * cropSize +
            (t.get_unit_coordinates minx minz step).1 * overlap,
          (unitRange minz maxz step - (t.get_unit_coordinates minx minz step).2 - 1) * cropSize +
            (unitRange minz maxz step - (t.get_unit_coordinates minx minz step).2 - 1) *
              overlap) =
        pasteTriple minx minz step (pyIntOfDiv (maxz - minz) step + 1) cropSize overlap t := by
      rw [pasteTriple_eval, ← hur]
      refine congrArg (Prod.mk t) ?_
      refine congrArg₂ Prod.mk ?_ ?_
      · ring
      · ring
    rw [heq]
    exact List.mem_map_of_mem _ ((mem_pySort t tiles).mpr ht)
  · intro htz hco
    have hu2 : (t.get_unit_coordinates minx minz step).2 = 0 := by
      show pyIntOfDiv (t.zCoordWS - minz) step = 0
      rw [htz, sub_self, pyIntOfDiv]
      exact Int.zero_tdiv step
    refine ⟨hu2, ?_⟩
    intro q hq
    obtain ⟨t', ht', hq⟩ := List.mem_map.mp hq
    have ht'' : t' ∈ tiles := (mem_pySort t' tiles).mp ht'
    have hminz_le : minz ≤ t'.zCoordWS :=
      listMin_le _ _ hminz _ (List.mem_map_of_mem Screenshot.zCoordWS ht'')
    have hu2' : 0 ≤ (t'.get_unit_coordinates minx minz step).2 :=
      Int.tdiv_nonneg (by omega) (by omega)
    have hq22 : q.2.2 =
        (pyIntOfDiv (maxz - minz) step + 1 - (t'.get_unit_coordinates minx minz step).2 - 1) *
          (cropSize + overlap) := by
      rw [← hq, pasteTriple_eval]
    rw [hq22]
    have hgoal : (unitRange minz maxz step - 1) * cropSize +
        (unitRange minz maxz step - 1) * overlap =
        (pyIntOfDiv (maxz - minz) step + 1 - 1) * (cropSize + overlap) := by
      rw [hur]
      ring
    rw [hgoal]
    exact mul_le_mul_of_nonneg_right (by omega) hco

/-- Witness for C3 at the 2 × 2 example registry with crop size 50 and
overlap 0: the minimum-z tile `(0, 0)` is pasted at `(0, 50)` and no paste
origin lies below it. -/
theorem composite_paste_placement_app :
    ∃ r, regFour.composite_screenshot_tiles regFour.screenshots 50 0 = Except.ok r ∧
      (⟨0, 0, none, none⟩, (0 : Int), (50 : Int)) ∈ r.pastes ∧
      ∀ q ∈ r.pastes, q.2.2 ≤ 50 := by
  obtain ⟨r, hr, hmem, hbot⟩ := composite_paste_placement regFour regFour.screenshots
    50 0 100 0 0 100 100 (by decide) (by decide) (by decide) (by decide)
    (by decide) (by decide) ⟨0, 0, none, none⟩ (by decide)
  obtain ⟨hu, hall⟩ := hbot (by decide) (by decide)
  refine ⟨r, hr, ?_, ?_⟩
  · convert hmem using 2
  · intro q hq
    have h := hall q hq
    have hb : (unitRange 0 100 100 - 1) * 50 + (unitRange 0 100 100 - 1) * 0 = 50 := by
      decide
    rw [hb] at h
    exact h

/-! ### Helper lemmas for the NCC score -/

theorem zipWith_mul_self (l : List ℚ) :
    List.zipWith (fun a b => a * b) l l = l.map (fun a => a * a) := by
  induction l with
  | nil => rfl
  | cons x xs ih => simp only [List.zipWith_cons_cons, List.map_cons, ih]

theorem zipWith_mul_neg (l : List ℚ) :
    List.zipWith (fun a b => a * b) l (l.map (fun v => -v)) = l.map (fun a => -(a * a)) := by
  induction l with
  | nil => rfl
  | cons x xs ih => simp only [List.map_cons, List.zipWith_cons_cons, ih, mul_neg]

theorem sum_map_neg_sq (l : List ℚ) :
    (l.map (fun a => -(a * a))).sum = -((l.map (fun a => a * a)).sum) := by
  induction l with
  | nil => simp
  | cons x xs ih => simp only [List.map_cons, List.sum_cons, ih, neg_add]

theorem sumSq_nonneg (l : List ℚ) : 0 ≤ sumSq l := by
  refine List.sum_nonneg ?_
  intro x hx
  obtain ⟨v, _, hv⟩ := List.mem_map.mp hx
  rw [← hv]
  exact mul_self_nonneg v

theorem sumSq_map_neg (l : List ℚ) : sumSq (l.map (fun v => -v)) = sumSq l := by
  rw [sumSq, sumSq]
  induction l with
  | nil => rfl
  | cons x xs ih => simp only [List.map_cons, List.sum_cons, ih, neg_mul_neg]

/-- Claim C5: in the exact-arithmetic model of the per-row NCC scoring of
`find_best_matching_row`, a nondegenerate row scores `1` against itself, a
row scores `-1` against its exact negation around the means, and any
comparison in which either row has zero variance scores `0` through the
guarded zero-denominator branch — the score function is total, so no `NaN`
and no exception arises. -/
theorem ncc_score_values (src tgt : List ℚ) :
    (sumSq (rowNorm src) ≠ 0 → nccScore src src = 1) ∧
    (rowNorm tgt = (rowNorm src).map (fun v => -v) → sumSq (rowNorm src) ≠ 0 →
      nccScore src tgt = -1) ∧
    ((sumSq (rowNorm src) = 0 ∨ sumSq (rowNorm tgt) = 0) → nccScore src tgt = 0) := by
  refine ⟨?_, ?_, ?_⟩
  · intro hS
    have hN : nccNumerator src src = sumSq (rowNorm src) := by
      rw [nccNumerator, zipWith_mul_self]
      rfl
    have hD : nccDenomSq src src = sumSq (rowNorm src) * sumSq (rowNorm src) := rfl
    have hcast : (0 : ℝ) ≤ (sumSq (rowNorm src) : ℝ) := by
      exact_mod_cast sumSq_nonneg (rowNorm src)
    rw [nccScore, if_neg (by rw [hD]; exact mul_ne_zero hS hS), hN, hD, Rat.cast_mul,
      Real.sqrt_mul_self hcast]
    exact div_self (by exact_mod_cast hS)
  · intro hneg hS
    have hN : nccNumerator src tgt = -(sumSq (rowNorm src)) := by
      rw [nccNumerator, hneg, zipWith_mul_neg, sum_map_neg_sq]
      rfl
    have hD : nccDenomSq src tgt = sumSq (rowNorm src) * sumSq (rowNorm src) := by
      rw [nccDenomSq, hneg, sumSq_map_neg]
    have hcast : (0 : ℝ) ≤ (sumSq (rowNorm src) : ℝ) := by
      exact_mod_cast sumSq_nonneg (rowNorm src)
    rw [nccScore, if_neg (by rw [hD]; exact mul_ne_zero hS hS), hN, hD, Rat.cast_mul,
      Real.sqrt_mul_self hcast, Rat.cast_neg, neg_div]
    rw [div_self (by exact_mod_cast hS)]
  · intro h
    have hD : nccDenomSq src tgt = 0 := by
      rcases h with h | h
      · rw [nccDenomSq, h, zero_mul]
      · rw [nccDenomSq, h, mul_zero]
    rw [nccScore, if_pos hD]

/-- Witness for C5 on concrete rows: `[0, 2]` against itself scores 1,
against its mean-negation `[2, 0]` scores -1, and against anything the
constant row `[5, 5]` (zero variance) scores 0. -/
theorem ncc_score_values_app :
    nccScore [0, 2] [0, 2] = 1 ∧ nccScore [0, 2] [2, 0] = -1 ∧
    nccScore [0, 2] [5, 5] = 0 := by
  refine ⟨(ncc_score_values [0, 2] [0, 2]).1 (by norm_num [sumSq, rowNorm, rowMean]),
    (ncc_score_values [0, 2] [2, 0]).2.1 (by norm_num [rowNorm, rowMean])
      (by norm_num [sumSq, rowNorm, rowMean]),
    (ncc_score_values [0, 2] [5, 5]).2.2 (Or.inr (by norm_num [sumSq, rowNorm, rowMean]))⟩

end CropScreenshots
